import Mathlib

/-!
Shallow embedding of the idgen Go package: the k-bit Feistel obfuscator
(feistel.go) and the paced, reversible ID generator (idgen.go).

Machine integers (Go uint64 / int64) are modelled as Nat / Int; at every
operation where Go arithmetic could overflow a 64-bit word, the reduction
mod 2^64 is written explicitly.  A Go expression of the form
x & ((1 << n) - 1) is rendered as x &&& (2 ^ n - 1); when n can be >= 64
the Go value of (1 << n) - 1 is (2 ^ n - 1) % 2 ^ 64, which is the form
used below.
-/

namespace Idgen

/-- Fixed table of ARX round constants (constC in simpleFbits, feistel.go line 39). -/
def constC : List Nat :=
  [0x9E3779B97F4A7C15, 0xBF58476D1CE4E5B9, 0x94D049BB133111EB,
   0xD6E8FEB86659FD93, 0xA24BAED4963EE407, 0x9FB21C651E98DF25]

/-- The feistel struct (feistel.go lines 7-13): domain bits k, round count,
initial left/right half widths, and the k-bit mask. -/
structure Feistel where
  k : Nat
  rounds : Nat
  lBits : Nat
  rBits : Nat
  mask : Nat
deriving Repr, DecidableEq

/-- simpleFbits (feistel.go lines 38-51): maps an input of inBits to an output
of outBits using ARX ops.  The uint64 multiply-add and the left shift wrap
mod 2^64. -/
def simpleFbits (input : Nat) (inBits outBits : Nat) (round : Nat) : Nat :=
  let c := constC.getD (round % constC.length) 0
  let inMask := 2 ^ inBits - 1
  let outMask := 2 ^ outBits - 1
  let x0 := (input &&& inMask) ^^^ (c &&& inMask)
  let x1 := ((x0 * 0x5bd1e995 + 0x27d4eb2d) % 2 ^ 64) &&& outMask
  let x2 :=
    if 1 < outBits then
      let rot := (5 + round) % outBits
      (((x1 <<< rot) % 2 ^ 64) ||| (x1 >>> (outBits - rot))) &&& outMask
    else x1
  let x3 := x2 ^^^ ((x2 >>> 3) &&& outMask)
  x3 &&& outMask

/-- One forward Feistel round: the body of the loop in Obfuscate
(feistel.go lines 60-70), at round index i on the half pair s. -/
def roundStep (l r i : Nat) (s : Nat × Nat) : Nat × Nat :=
  if i % 2 = 0 then
    (s.2, (s.1 ^^^ simpleFbits s.2 r l i) &&& (2 ^ l - 1))
  else
    (s.2, (s.1 ^^^ simpleFbits s.2 l r i) &&& (2 ^ r - 1))

/-- obfLoop l r n s applies the forward rounds 0, ..., n-1 to the half pair s,
exactly as the for-loop in Obfuscate does. -/
def obfLoop (l r : Nat) : Nat → Nat × Nat → Nat × Nat
  | 0, s => s
  | n + 1, s => roundStep l r n (obfLoop l r n s)

/-- One inverse Feistel round: the body of the loop in Deobfuscate
(feistel.go lines 95-109), at round index i. -/
def invStep (l r i : Nat) (s : Nat × Nat) : Nat × Nat :=
  if i % 2 = 0 then
    ((s.2 ^^^ simpleFbits s.1 r l i) &&& (2 ^ l - 1), s.1)
  else
    ((s.2 ^^^ simpleFbits s.1 l r i) &&& (2 ^ r - 1), s.1)

/-- deobLoop l r n s applies the inverse rounds n-1, ..., 0 to the half pair s,
exactly as the downward for-loop in Deobfuscate does. -/
def deobLoop (l r : Nat) : Nat → Nat × Nat → Nat × Nat
  | 0, s => s
  | n + 1, s => deobLoop l r n (invStep l r n s)

/-- Obfuscate (feistel.go lines 53-78): mask the input to k bits, split into a
low lBits half and a high rBits half, run the rounds, and repack according to
the parity of the round count. -/
def Obfuscate (f : Feistel) (x0 : Nat) : Nat :=
  let x := x0 &&& f.mask
  let lMask := 2 ^ f.lBits - 1
  let rMask := 2 ^ f.rBits - 1
  let s := obfLoop f.lBits f.rBits f.rounds (x &&& lMask, (x >>> f.lBits) &&& rMask)
  if f.rounds % 2 = 0 then
    ((s.2 <<< f.lBits) % 2 ^ 64) ||| (s.1 &&& lMask)
  else
    ((s.2 <<< f.rBits) % 2 ^ 64) ||| (s.1 &&& rMask)

/-- Deobfuscate (feistel.go lines 80-112): unpack the halves according to the
parity of the round count, run the inverse rounds, and repack in the original
arrangement (low lBits half, high rBits half). -/
def Deobfuscate (f : Feistel) (y0 : Nat) : Nat :=
  let y := y0 &&& f.mask
  let lMask := 2 ^ f.lBits - 1
  let rMask := 2 ^ f.rBits - 1
  let s0 :=
    if f.rounds % 2 = 0 then (y &&& lMask, (y >>> f.lBits) &&& rMask)
    else (y &&& rMask, (y >>> f.rBits) &&& lMask)
  let s := deobLoop f.lBits f.rBits f.rounds s0
  ((s.2 <<< f.lBits) % 2 ^ 64) ||| (s.1 &&& lMask)

/-- NewFeistel (feistel.go lines 17-33): k must be in [1,63] and rounds >= 2;
the left half gets l = ceil(k/2) bits.  The Go rounds parameter has type int,
modelled as Int. -/
def NewFeistel (k : Nat) (rounds : Int) : Except String Feistel :=
  if k = 0 ∨ 63 < k then .error "feistel: k out of range"
  else if rounds < 2 then .error "feistel: rounds must be >= 2"
  else
    .ok { k := k, rounds := rounds.toNat, lBits := (k + 1) / 2,
          rBits := k - (k + 1) / 2, mask := 2 ^ k - 1 }

/-- The round function always lands inside its declared output width. -/
theorem simpleFbits_lt (input a b r : Nat) : simpleFbits input a b r < 2 ^ b :=
  Nat.and_lt_two_pow _ (Nat.sub_lt (Nat.two_pow_pos b) one_pos)

/-- Masking with a full-width mask twice around an xor cancels: the algebraic
heart of the Feistel inversion. -/
theorem mask_xor_mask_cancel {L fn n : Nat} (hL : L < 2 ^ n) (hfn : fn < 2 ^ n) :
    (((L ^^^ fn) &&& (2 ^ n - 1)) ^^^ fn) &&& (2 ^ n - 1) = L := by
  rw [Nat.and_pow_two_sub_one_of_lt_two_pow (Nat.xor_lt_two_pow hL hfn),
    Nat.xor_cancel_right, Nat.and_pow_two_sub_one_of_lt_two_pow hL]

/-- Invariant carried through the rounds: at round index i, the left half holds
lBits and the right half rBits when i is even, and the widths are swapped when
i is odd (the halves' widths swap identity every round). -/
def HalvesInv (l r i : Nat) (s : Nat × Nat) : Prop :=
  if i % 2 = 0 then s.1 < 2 ^ l ∧ s.2 < 2 ^ r else s.1 < 2 ^ r ∧ s.2 < 2 ^ l

theorem roundStep_inv {l r i : Nat} {s : Nat × Nat} (h : HalvesInv l r i s) :
    HalvesInv l r (i + 1) (roundStep l r i s) := by
  by_cases hi : i % 2 = 0
  · have hi1 : ¬ (i + 1) % 2 = 0 := by omega
    simp only [HalvesInv, roundStep, hi, if_true, hi1, if_false, if_pos, if_neg] at *
    exact ⟨h.2, Nat.and_lt_two_pow _ (Nat.sub_lt (Nat.two_pow_pos l) one_pos)⟩
  · have hi1 : (i + 1) % 2 = 0 := by omega
    simp only [HalvesInv, roundStep, hi, if_false, hi1, if_true, if_pos, if_neg] at *
    exact ⟨h.2, Nat.and_lt_two_pow _ (Nat.sub_lt (Nat.two_pow_pos r) one_pos)⟩

theorem invStep_inv {l r i : Nat} {s : Nat × Nat} (h : HalvesInv l r (i + 1) s) :
    HalvesInv l r i (invStep l r i s) := by
  by_cases hi : i % 2 = 0
  · have hi1 : ¬ (i + 1) % 2 = 0 := by omega
    simp only [HalvesInv, invStep, hi, hi1, if_true, if_false, if_pos, if_neg] at *
    exact ⟨Nat.and_lt_two_pow _ (Nat.sub_lt (Nat.two_pow_pos l) one_pos), h.1⟩
  · have hi1 : (i + 1) % 2 = 0 := by omega
    simp only [HalvesInv, invStep, hi, hi1, if_true, if_false, if_pos, if_neg] at *
    exact ⟨Nat.and_lt_two_pow _ (Nat.sub_lt (Nat.two_pow_pos r) one_pos), h.1⟩

theorem invStep_roundStep {l r i : Nat} {s : Nat × Nat} (h : HalvesInv l r i s) :
    invStep l r i (roundStep l r i s) = s := by
  by_cases hi : i % 2 = 0
  · simp only [HalvesInv, hi, if_true, if_pos] at h
    simp only [roundStep, invStep, hi, if_true, if_pos]
    exact Prod.ext (mask_xor_mask_cancel h.1 (simpleFbits_lt _ _ _ _)) rfl
  · simp only [HalvesInv, hi, if_false, if_neg] at h
    simp only [roundStep, invStep, hi, if_false, if_neg]
    exact Prod.ext (mask_xor_mask_cancel h.1 (simpleFbits_lt _ _ _ _)) rfl

theorem roundStep_invStep {l r i : Nat} {s : Nat × Nat} (h : HalvesInv l r (i + 1) s) :
    roundStep l r i (invStep l r i s) = s := by
  by_cases hi : i % 2 = 0
  · have hi1 : ¬ (i + 1) % 2 = 0 := by omega
    simp only [HalvesInv, hi1, if_neg, if_false] at h
    simp only [roundStep, invStep, hi, if_true, if_pos]
    exact Prod.ext rfl (mask_xor_mask_cancel h.2 (simpleFbits_lt _ _ _ _))
  · have hi1 : (i + 1) % 2 = 0 := by omega
    simp only [HalvesInv, hi1, if_pos, if_true] at h
    simp only [roundStep, invStep, hi, if_false, if_neg]
    exact Prod.ext rfl (mask_xor_mask_cancel h.2 (simpleFbits_lt _ _ _ _))

theorem obfLoop_inv {l r : Nat} (n : Nat) {s : Nat × Nat} (h : HalvesInv l r 0 s) :
    HalvesInv l r n (obfLoop l r n s) := by
  induction n with
  | zero => exact h
  | succ n ih => exact roundStep_inv ih

theorem deobLoop_inv {l r : Nat} (n : Nat) {s : Nat × Nat} (h : HalvesInv l r n s) :
    HalvesInv l r 0 (deobLoop l r n s) := by
  induction n generalizing s with
  | zero => exact h
  | succ n ih => exact ih (invStep_inv h)

theorem deobLoop_obfLoop {l r : Nat} (n : Nat) {s : Nat × Nat} (h : HalvesInv l r 0 s) :
    deobLoop l r n (obfLoop l r n s) = s := by
  induction n with
  | zero => rfl
  | succ n ih =>
    show deobLoop l r n (invStep l r n (roundStep l r n (obfLoop l r n s))) = s
    rw [invStep_roundStep (obfLoop_inv n h), ih]

theorem obfLoop_deobLoop {l r : Nat} (n : Nat) {s : Nat × Nat} (h : HalvesInv l r n s) :
    obfLoop l r n (deobLoop l r n s) = s := by
  induction n generalizing s with
  | zero => rfl
  | succ n ih =>
    show roundStep l r n (obfLoop l r n (deobLoop l r n (invStep l r n s))) = s
    rw [ih (invStep_inv h), roundStep_invStep h]

/-- Packing two disjoint bit fields with a shift and an or is plain arithmetic. -/
theorem shiftLeft_or_eq_add {R L n : Nat} (hL : L < 2 ^ n) :
    (R <<< n) ||| L = R * 2 ^ n + L := by
  apply Nat.eq_of_testBit_eq
  intro i
  rw [Nat.testBit_or, Nat.testBit_shiftLeft, Nat.mul_comm R, Nat.testBit_mul_pow_two_add R hL i]
  by_cases hi : i < n
  · simp [Nat.not_le.mpr hi, hi]
  · have hLi : L.testBit i = false :=
      Nat.testBit_lt_two_pow
        (lt_of_lt_of_le hL (Nat.pow_le_pow_right (by norm_num) (Nat.not_lt.mp hi)))
    simp [Nat.not_lt.mp hi, hi, hLi]

theorem pack_lt {R L n m : Nat} (hR : R < 2 ^ m) (hL : L < 2 ^ n) :
    R * 2 ^ n + L < 2 ^ (n + m) := by
  have h1 : R * 2 ^ n + L < (R + 1) * 2 ^ n := by
    rw [Nat.add_mul, Nat.one_mul]
    omega
  calc R * 2 ^ n + L < (R + 1) * 2 ^ n := h1
    _ ≤ 2 ^ m * 2 ^ n := Nat.mul_le_mul_right _ hR
    _ = 2 ^ (n + m) := by rw [← Nat.pow_add, Nat.add_comm]


theorem mul_pow_or_eq_add {R L n : Nat} (hL : L < 2 ^ n) :
    (R * 2 ^ n) ||| L = R * 2 ^ n + L := by
  have h : (R <<< n) ||| L = R * 2 ^ n + L := shiftLeft_or_eq_add hL
  rwa [Nat.shiftLeft_eq] at h

theorem pack_mod {R L n : Nat} (hL : L < 2 ^ n) : (R * 2 ^ n + L) % 2 ^ n = L := by
  rw [Nat.mul_comm R, Nat.mul_add_mod]
  exact Nat.mod_eq_of_lt hL

theorem pack_div {R L n : Nat} (hL : L < 2 ^ n) : (R * 2 ^ n + L) / 2 ^ n = R := by
  rw [Nat.mul_comm R, Nat.mul_add_div (Nat.two_pow_pos n), Nat.div_eq_of_lt hL,
    Nat.add_zero]

theorem div_lt_of_lt_pack {x l r k : Nat} (h : l + r = k) (hx : x < 2 ^ k) :
    x / 2 ^ l < 2 ^ r := by
  rw [Nat.div_lt_iff_lt_mul (Nat.two_pow_pos l)]
  calc x < 2 ^ k := hx
    _ = 2 ^ r * 2 ^ l := by rw [← Nat.pow_add, Nat.add_comm r l, h]

/-- Well-formedness of a Feistel instance, as established by NewFeistel:
the half widths partition k, the mask covers exactly the domain, and the
domain fits in a uint64 without overflow in the repacking shifts. -/
def Feistel.Wf (f : Feistel) : Prop :=
  f.lBits + f.rBits = f.k ∧ f.mask = 2 ^ f.k - 1 ∧ f.k ≤ 63

theorem NewFeistel_wf {k : Nat} {rounds : Int} {f : Feistel}
    (hf : NewFeistel k rounds = Except.ok f) :
    f.Wf ∧ f.k = k ∧ 0 < f.k ∧ 2 ≤ f.rounds := by
  unfold NewFeistel at hf
  by_cases h1 : k = 0 ∨ 63 < k
  · rw [if_pos h1] at hf
    exact absurd hf (by simp)
  · rw [if_neg h1] at hf
    by_cases h2 : rounds < 2
    · rw [if_pos h2] at hf
      exact absurd hf (by simp)
    · rw [if_neg h2] at hf
      injection hf with hfe
      subst hfe
      refine ⟨⟨?_, rfl, ?_⟩, rfl, ?_, ?_⟩
      · show (k + 1) / 2 + (k - (k + 1) / 2) = k
        omega
      · show k ≤ 63
        omega
      · show 0 < k
        omega
      · show 2 ≤ rounds.toNat
        omega

/-- Obfuscate only depends on the input through its masked value. -/
theorem Obfuscate_mask (f : Feistel) (x : Nat) :
    Obfuscate f (x &&& f.mask) = Obfuscate f x := by
  simp only [Obfuscate, Nat.and_assoc, Nat.and_self]

/-- Obfuscate, rewritten as arithmetic on the loop state: the packed result is
(high half) * 2^(low-half width) + (low half), with the widths chosen by the
parity of the round count. -/
theorem Obfuscate_eq_pack (f : Feistel) (hwf : f.Wf) (x : Nat) (hx : x < 2 ^ f.k) :
    Obfuscate f x =
      (if f.rounds % 2 = 0 then
        (obfLoop f.lBits f.rBits f.rounds (x % 2 ^ f.lBits, x / 2 ^ f.lBits)).2 * 2 ^ f.lBits
          + (obfLoop f.lBits f.rBits f.rounds (x % 2 ^ f.lBits, x / 2 ^ f.lBits)).1
      else
        (obfLoop f.lBits f.rBits f.rounds (x % 2 ^ f.lBits, x / 2 ^ f.lBits)).2 * 2 ^ f.rBits
          + (obfLoop f.lBits f.rBits f.rounds (x % 2 ^ f.lBits, x / 2 ^ f.lBits)).1) := by
  obtain ⟨hlr, hmask, hk⟩ := hwf
  have hxmod : x % 2 ^ f.k = x := Nat.mod_eq_of_lt hx
  have hxdiv : x / 2 ^ f.lBits < 2 ^ f.rBits := div_lt_of_lt_pack hlr hx
  have h0 : HalvesInv f.lBits f.rBits 0 (x % 2 ^ f.lBits, x / 2 ^ f.lBits) :=
    ⟨Nat.mod_lt _ (Nat.two_pow_pos _), hxdiv⟩
  have hs := obfLoop_inv f.rounds h0
  unfold HalvesInv at hs
  by_cases hpar : f.rounds % 2 = 0
  · rw [if_pos hpar] at hs
    simp only [Obfuscate, hmask, Nat.and_pow_two_sub_one_eq_mod,
      Nat.shiftRight_eq_div_pow, Nat.shiftLeft_eq, hxmod, Nat.mod_eq_of_lt hxdiv,
      if_pos hpar]
    rw [Nat.mod_eq_of_lt hs.1]
    have hshift : (obfLoop f.lBits f.rBits f.rounds
        (x % 2 ^ f.lBits, x / 2 ^ f.lBits)).2 * 2 ^ f.lBits < 2 ^ 64 := by
      calc _ < 2 ^ f.rBits * 2 ^ f.lBits := mul_lt_mul_of_pos_right hs.2 (Nat.two_pow_pos _)
        _ = 2 ^ f.k := by rw [← Nat.pow_add, Nat.add_comm, hlr]
        _ ≤ 2 ^ 64 := Nat.pow_le_pow_right (by norm_num) (by omega)
    rw [Nat.mod_eq_of_lt hshift, mul_pow_or_eq_add hs.1]
  · rw [if_neg hpar] at hs
    simp only [Obfuscate, hmask, Nat.and_pow_two_sub_one_eq_mod,
      Nat.shiftRight_eq_div_pow, Nat.shiftLeft_eq, hxmod, Nat.mod_eq_of_lt hxdiv,
      if_neg hpar]
    rw [Nat.mod_eq_of_lt hs.1]
    have hshift : (obfLoop f.lBits f.rBits f.rounds
        (x % 2 ^ f.lBits, x / 2 ^ f.lBits)).2 * 2 ^ f.rBits < 2 ^ 64 := by
      calc _ < 2 ^ f.lBits * 2 ^ f.rBits := mul_lt_mul_of_pos_right hs.2 (Nat.two_pow_pos _)
        _ = 2 ^ f.k := by rw [← Nat.pow_add, hlr]
        _ ≤ 2 ^ 64 := Nat.pow_le_pow_right (by norm_num) (by omega)
    rw [Nat.mod_eq_of_lt hshift, mul_pow_or_eq_add hs.1]

/-- Obfuscate always lands in the k-bit domain. -/
theorem Obfuscate_lt (f : Feistel) (hwf : f.Wf) (x : Nat) :
    Obfuscate f x < 2 ^ f.k := by
  have hmlt : x &&& f.mask < 2 ^ f.k := by
    rw [hwf.2.1, Nat.and_pow_two_sub_one_eq_mod]
    exact Nat.mod_lt _ (Nat.two_pow_pos _)
  rw [← Obfuscate_mask, Obfuscate_eq_pack f hwf _ hmlt]
  have h0 : HalvesInv f.lBits f.rBits 0
      ((x &&& f.mask) % 2 ^ f.lBits, (x &&& f.mask) / 2 ^ f.lBits) :=
    ⟨Nat.mod_lt _ (Nat.two_pow_pos _), div_lt_of_lt_pack hwf.1 hmlt⟩
  have hs := obfLoop_inv f.rounds h0
  unfold HalvesInv at hs
  by_cases hpar : f.rounds % 2 = 0
  · rw [if_pos hpar] at hs
    rw [if_pos hpar]
    calc _ < 2 ^ (f.lBits + f.rBits) := pack_lt hs.2 hs.1
      _ = 2 ^ f.k := by rw [hwf.1]
  · rw [if_neg hpar] at hs
    rw [if_neg hpar]
    calc _ < 2 ^ (f.rBits + f.lBits) := pack_lt hs.2 hs.1
      _ = 2 ^ f.k := by rw [Nat.add_comm, hwf.1]

/-- Deobfuscate only depends on the input through its masked value. -/
theorem Deobfuscate_mask (f : Feistel) (y : Nat) :
    Deobfuscate f (y &&& f.mask) = Deobfuscate f y := by
  simp only [Deobfuscate, Nat.and_assoc, Nat.and_self]

/-- Deobfuscate, rewritten as arithmetic on the loop state. -/
theorem Deobfuscate_eq_pack (f : Feistel) (hwf : f.Wf) (y : Nat) (hy : y < 2 ^ f.k) :
    Deobfuscate f y =
      (if f.rounds % 2 = 0 then
        (deobLoop f.lBits f.rBits f.rounds (y % 2 ^ f.lBits, y / 2 ^ f.lBits)).2 * 2 ^ f.lBits
          + (deobLoop f.lBits f.rBits f.rounds (y % 2 ^ f.lBits, y / 2 ^ f.lBits)).1
      else
        (deobLoop f.lBits f.rBits f.rounds (y % 2 ^ f.rBits, y / 2 ^ f.rBits)).2 * 2 ^ f.lBits
          + (deobLoop f.lBits f.rBits f.rounds (y % 2 ^ f.rBits, y / 2 ^ f.rBits)).1) := by
  obtain ⟨hlr, hmask, hk⟩ := hwf
  have hymod : y % 2 ^ f.k = y := Nat.mod_eq_of_lt hy
  by_cases hpar : f.rounds % 2 = 0
  · have hydiv : y / 2 ^ f.lBits < 2 ^ f.rBits := div_lt_of_lt_pack hlr hy
    have hinit : HalvesInv f.lBits f.rBits f.rounds (y % 2 ^ f.lBits, y / 2 ^ f.lBits) := by
      unfold HalvesInv
      rw [if_pos hpar]
      exact ⟨Nat.mod_lt _ (Nat.two_pow_pos _), hydiv⟩
    have ht := deobLoop_inv f.rounds hinit
    unfold HalvesInv at ht
    rw [if_pos (show 0 % 2 = 0 from rfl)] at ht
    simp only [Deobfuscate, hmask, Nat.and_pow_two_sub_one_eq_mod,
      Nat.shiftRight_eq_div_pow, Nat.shiftLeft_eq, hymod, Nat.mod_eq_of_lt hydiv,
      if_pos hpar]
    rw [Nat.mod_eq_of_lt ht.1]
    have hshift : (deobLoop f.lBits f.rBits f.rounds
        (y % 2 ^ f.lBits, y / 2 ^ f.lBits)).2 * 2 ^ f.lBits < 2 ^ 64 := by
      calc _ < 2 ^ f.rBits * 2 ^ f.lBits := mul_lt_mul_of_pos_right ht.2 (Nat.two_pow_pos _)
        _ = 2 ^ f.k := by rw [← Nat.pow_add, Nat.add_comm, hlr]
        _ ≤ 2 ^ 64 := Nat.pow_le_pow_right (by norm_num) (by omega)
    rw [Nat.mod_eq_of_lt hshift, mul_pow_or_eq_add ht.1]
  · have hydiv : y / 2 ^ f.rBits < 2 ^ f.lBits := by
      refine div_lt_of_lt_pack ?_ hy
      omega
    have hinit : HalvesInv f.lBits f.rBits f.rounds (y % 2 ^ f.rBits, y / 2 ^ f.rBits) := by
      unfold HalvesInv
      rw [if_neg hpar]
      exact ⟨Nat.mod_lt _ (Nat.two_pow_pos _), hydiv⟩
    have ht := deobLoop_inv f.rounds hinit
    unfold HalvesInv at ht
    rw [if_pos (show 0 % 2 = 0 from rfl)] at ht
    simp only [Deobfuscate, hmask, Nat.and_pow_two_sub_one_eq_mod,
      Nat.shiftRight_eq_div_pow, Nat.shiftLeft_eq, hymod, Nat.mod_eq_of_lt hydiv,
      if_neg hpar]
    rw [Nat.mod_eq_of_lt ht.1]
    have hshift : (deobLoop f.lBits f.rBits f.rounds
        (y % 2 ^ f.rBits, y / 2 ^ f.rBits)).2 * 2 ^ f.lBits < 2 ^ 64 := by
      calc _ < 2 ^ f.rBits * 2 ^ f.lBits := mul_lt_mul_of_pos_right ht.2 (Nat.two_pow_pos _)
        _ = 2 ^ f.k := by rw [← Nat.pow_add, Nat.add_comm, hlr]
        _ ≤ 2 ^ 64 := Nat.pow_le_pow_right (by norm_num) (by omega)
    rw [Nat.mod_eq_of_lt hshift, mul_pow_or_eq_add ht.1]

/-- Deobfuscate always lands in the k-bit domain. -/
theorem Deobfuscate_lt (f : Feistel) (hwf : f.Wf) (y : Nat) :
    Deobfuscate f y < 2 ^ f.k := by
  have hmlt : y &&& f.mask < 2 ^ f.k := by
    rw [hwf.2.1, Nat.and_pow_two_sub_one_eq_mod]
    exact Nat.mod_lt _ (Nat.two_pow_pos _)
  rw [← Deobfuscate_mask, Deobfuscate_eq_pack f hwf _ hmlt]
  obtain ⟨hlr, hmask, hk⟩ := hwf
  by_cases hpar : f.rounds % 2 = 0
  · have hinit : HalvesInv f.lBits f.rBits f.rounds
        ((y &&& f.mask) % 2 ^ f.lBits, (y &&& f.mask) / 2 ^ f.lBits) := by
      unfold HalvesInv
      rw [if_pos hpar]
      exact ⟨Nat.mod_lt _ (Nat.two_pow_pos _), div_lt_of_lt_pack hlr hmlt⟩
    have ht := deobLoop_inv f.rounds hinit
    unfold HalvesInv at ht
    rw [if_pos (show 0 % 2 = 0 from rfl)] at ht
    rw [if_pos hpar]
    calc _ < 2 ^ (f.lBits + f.rBits) := pack_lt ht.2 ht.1
      _ = 2 ^ f.k := by rw [hlr]
  · have hinit : HalvesInv f.lBits f.rBits f.rounds
        ((y &&& f.mask) % 2 ^ f.rBits, (y &&& f.mask) / 2 ^ f.rBits) := by
      unfold HalvesInv
      rw [if_neg hpar]
      refine ⟨Nat.mod_lt _ (Nat.two_pow_pos _), div_lt_of_lt_pack ?_ hmlt⟩
      omega
    have ht := deobLoop_inv f.rounds hinit
    unfold HalvesInv at ht
    rw [if_pos (show 0 % 2 = 0 from rfl)] at ht
    rw [if_neg hpar]
    calc _ < 2 ^ (f.lBits + f.rBits) := pack_lt ht.2 ht.1
      _ = 2 ^ f.k := by rw [hlr]

/-- Deobfuscate inverts Obfuscate on the whole k-bit domain. -/
theorem Deobfuscate_Obfuscate (f : Feistel) (hwf : f.Wf) {x : Nat} (hx : x < 2 ^ f.k) :
    Deobfuscate f (Obfuscate f x) = x := by
  have hlr := hwf.1
  have h0 : HalvesInv f.lBits f.rBits 0 (x % 2 ^ f.lBits, x / 2 ^ f.lBits) :=
    ⟨Nat.mod_lt _ (Nat.two_pow_pos _), div_lt_of_lt_pack hlr hx⟩
  have hs := obfLoop_inv f.rounds h0
  unfold HalvesInv at hs
  rw [Obfuscate_eq_pack f hwf x hx]
  by_cases hpar : f.rounds % 2 = 0
  · rw [if_pos hpar] at hs
    rw [if_pos hpar]
    have hyk : (obfLoop f.lBits f.rBits f.rounds (x % 2 ^ f.lBits, x / 2 ^ f.lBits)).2
        * 2 ^ f.lBits
        + (obfLoop f.lBits f.rBits f.rounds (x % 2 ^ f.lBits, x / 2 ^ f.lBits)).1
        < 2 ^ f.k := by
      calc _ < 2 ^ (f.lBits + f.rBits) := pack_lt hs.2 hs.1
        _ = 2 ^ f.k := by rw [hlr]
    rw [Deobfuscate_eq_pack f hwf _ hyk, if_pos hpar, pack_mod hs.1, pack_div hs.1,
      Prod.mk.eta, deobLoop_obfLoop f.rounds h0]
    rw [Nat.mul_comm]
    exact Nat.div_add_mod x _
  · rw [if_neg hpar] at hs
    rw [if_neg hpar]
    have hyk : (obfLoop f.lBits f.rBits f.rounds (x % 2 ^ f.lBits, x / 2 ^ f.lBits)).2
        * 2 ^ f.rBits
        + (obfLoop f.lBits f.rBits f.rounds (x % 2 ^ f.lBits, x / 2 ^ f.lBits)).1
        < 2 ^ f.k := by
      calc _ < 2 ^ (f.rBits + f.lBits) := pack_lt hs.2 hs.1
        _ = 2 ^ f.k := by rw [Nat.add_comm, hlr]
    rw [Deobfuscate_eq_pack f hwf _ hyk, if_neg hpar, pack_mod hs.1, pack_div hs.1,
      Prod.mk.eta, deobLoop_obfLoop f.rounds h0]
    rw [Nat.mul_comm]
    exact Nat.div_add_mod x _

/-- Obfuscate inverts Deobfuscate on the whole k-bit domain. -/
theorem Obfuscate_Deobfuscate (f : Feistel) (hwf : f.Wf) {y : Nat} (hy : y < 2 ^ f.k) :
    Obfuscate f (Deobfuscate f y) = y := by
  have hlr := hwf.1
  rw [Deobfuscate_eq_pack f hwf y hy]
  by_cases hpar : f.rounds % 2 = 0
  · have hinit : HalvesInv f.lBits f.rBits f.rounds (y % 2 ^ f.lBits, y / 2 ^ f.lBits) := by
      unfold HalvesInv
      rw [if_pos hpar]
      exact ⟨Nat.mod_lt _ (Nat.two_pow_pos _), div_lt_of_lt_pack hlr hy⟩
    have ht := deobLoop_inv f.rounds hinit
    unfold HalvesInv at ht
    rw [if_pos (show 0 % 2 = 0 from rfl)] at ht
    rw [if_pos hpar]
    have hxk : (deobLoop f.lBits f.rBits f.rounds (y % 2 ^ f.lBits, y / 2 ^ f.lBits)).2
        * 2 ^ f.lBits
        + (deobLoop f.lBits f.rBits f.rounds (y % 2 ^ f.lBits, y / 2 ^ f.lBits)).1
        < 2 ^ f.k := by
      calc _ < 2 ^ (f.lBits + f.rBits) := pack_lt ht.2 ht.1
        _ = 2 ^ f.k := by rw [hlr]
    rw [Obfuscate_eq_pack f hwf _ hxk, if_pos hpar, pack_mod ht.1, pack_div ht.1,
      Prod.mk.eta, obfLoop_deobLoop f.rounds hinit]
    rw [Nat.mul_comm]
    exact Nat.div_add_mod y _
  · have hydiv : y / 2 ^ f.rBits < 2 ^ f.lBits := by
      refine div_lt_of_lt_pack ?_ hy
      omega
    have hinit : HalvesInv f.lBits f.rBits f.rounds (y % 2 ^ f.rBits, y / 2 ^ f.rBits) := by
      unfold HalvesInv
      rw [if_neg hpar]
      exact ⟨Nat.mod_lt _ (Nat.two_pow_pos _), hydiv⟩
    have ht := deobLoop_inv f.rounds hinit
    unfold HalvesInv at ht
    rw [if_pos (show 0 % 2 = 0 from rfl)] at ht
    rw [if_neg hpar]
    have hxk : (deobLoop f.lBits f.rBits f.rounds (y % 2 ^ f.rBits, y / 2 ^ f.rBits)).2
        * 2 ^ f.lBits
        + (deobLoop f.lBits f.rBits f.rounds (y % 2 ^ f.rBits, y / 2 ^ f.rBits)).1
        < 2 ^ f.k := by
      calc _ < 2 ^ (f.lBits + f.rBits) := pack_lt ht.2 ht.1
        _ = 2 ^ f.k := by rw [hlr]
    rw [Obfuscate_eq_pack f hwf _ hxk, if_neg hpar, pack_mod ht.1, pack_div ht.1,
      Prod.mk.eta, obfLoop_deobLoop f.rounds hinit]
    rw [Nat.mul_comm]
    exact Nat.div_add_mod y _

/-- C1: for every Feistel permutation constructed with domain bits k in [1,63]
and rounds >= 2 (both parities of the round count), and for every x in
[0, 2^k), Deobfuscate (Obfuscate x) = x: invert is the exact inverse of apply
over the whole domain. -/
theorem feistel_invert_apply (k : Nat) (rounds : Int) (f : Feistel)
    (hf : NewFeistel k rounds = Except.ok f) (x : Nat) (hx : x < 2 ^ k) :
    Deobfuscate f (Obfuscate f x) = x := by
  obtain ⟨hwf, hfk, -, -⟩ := NewFeistel_wf hf
  subst hfk
  exact Deobfuscate_Obfuscate f hwf hx

theorem feistel_invert_apply_witness :
    NewFeistel 5 3 = Except.ok ⟨5, 3, 3, 2, 31⟩ ∧ (17 : Nat) < 2 ^ 5 ∧
    Deobfuscate ⟨5, 3, 3, 2, 31⟩ (Obfuscate ⟨5, 3, 3, 2, 31⟩ 17) = 17 :=
  ⟨rfl, by norm_num,
    feistel_invert_apply 5 3 ⟨5, 3, 3, 2, 31⟩ rfl 17 (by norm_num)⟩

/-- C2: for every Feistel permutation constructed with domain bits k in [1,63]
and rounds >= 2, Obfuscate maps every input (after masking) into [0, 2^k) and
its restriction to [0, 2^k) is a bijection onto [0, 2^k). -/
theorem feistel_apply_bijection (k : Nat) (rounds : Int) (f : Feistel)
    (hf : NewFeistel k rounds = Except.ok f) :
    (∀ x : Nat, Obfuscate f x < 2 ^ k) ∧
    Set.BijOn (Obfuscate f) (Set.Iio (2 ^ k)) (Set.Iio (2 ^ k)) := by
  obtain ⟨hwf, hfk, -, -⟩ := NewFeistel_wf hf
  subst hfk
  refine ⟨fun x => Obfuscate_lt f hwf x, ?_, ?_, ?_⟩
  · intro x _
    simpa using Obfuscate_lt f hwf x
  · intro a ha b hb hab
    have ha' : a < 2 ^ f.k := by simpa using ha
    have hb' : b < 2 ^ f.k := by simpa using hb
    have h := congrArg (Deobfuscate f) hab
    rwa [Deobfuscate_Obfuscate f hwf ha', Deobfuscate_Obfuscate f hwf hb'] at h
  · intro y hy
    have hy' : y < 2 ^ f.k := by simpa using hy
    exact ⟨Deobfuscate f y, by simpa using Deobfuscate_lt f hwf y,
      Obfuscate_Deobfuscate f hwf hy'⟩

theorem feistel_apply_bijection_witness :
    NewFeistel 6 4 = Except.ok ⟨6, 4, 3, 3, 63⟩ ∧
    ((∀ x : Nat, Obfuscate ⟨6, 4, 3, 3, 63⟩ x < 2 ^ 6) ∧
      Set.BijOn (Obfuscate ⟨6, 4, 3, 3, 63⟩) (Set.Iio (2 ^ 6)) (Set.Iio (2 ^ 6))) :=
  ⟨rfl, feistel_apply_bijection 6 4 ⟨6, 4, 3, 3, 63⟩ rfl⟩

/-- The Obfuscator interface (idgen.go lines 12-17): a reversible permutation
over a k-bit domain [0, 2^k).  The Prop fields record the documented contract
of the interface (apply/invert are mutually inverse bijections of the domain)
together with the fact that the Go methods return uint64 values; the Feistel
implementation satisfies all of them. -/
structure Obfuscator where
  domainBits : Nat
  obfuscate : Nat → Nat
  deobfuscate : Nat → Nat
  obf_mem : ∀ x, x < 2 ^ domainBits → obfuscate x < 2 ^ domainBits
  deob_mem : ∀ y, y < 2 ^ domainBits → deobfuscate y < 2 ^ domainBits
  deob_obf : ∀ x, x < 2 ^ domainBits → deobfuscate (obfuscate x) = x
  obf_deob : ∀ y, y < 2 ^ domainBits → obfuscate (deobfuscate y) = y
  obf_lt64 : ∀ x, obfuscate x < 2 ^ 64
  deob_lt64 : ∀ y, deobfuscate y < 2 ^ 64

/-- A uint64-valued permutation of [0, 2^k) forces k <= 64. -/
theorem Obfuscator.domainBits_le (ob : Obfuscator) : ob.domainBits ≤ 64 := by
  by_contra h
  push_neg at h
  have h1 : 2 ^ ob.domainBits - 1 < 2 ^ ob.domainBits :=
    Nat.sub_lt (Nat.two_pow_pos _) one_pos
  have h2 := ob.obf_deob _ h1
  have h3 := ob.obf_lt64 (ob.deobfuscate (2 ^ ob.domainBits - 1))
  rw [h2] at h3
  have h4 : (2 : Nat) ^ 65 ≤ 2 ^ ob.domainBits := Nat.pow_le_pow_right (by norm_num) h
  have h5 : (2 : Nat) ^ 65 = 2 * 2 ^ 64 := by ring
  omega

/-- The Feistel network, packaged behind the Obfuscator interface
(DomainBits returns f.k, feistel.go line 35). -/
def Feistel.toObfuscator (f : Feistel) (hwf : f.Wf) : Obfuscator where
  domainBits := f.k
  obfuscate := Obfuscate f
  deobfuscate := Deobfuscate f
  obf_mem := fun x _ => Obfuscate_lt f hwf x
  deob_mem := fun y _ => Deobfuscate_lt f hwf y
  deob_obf := fun _ hx => Deobfuscate_Obfuscate f hwf hx
  obf_deob := fun _ hy => Obfuscate_Deobfuscate f hwf hy
  obf_lt64 := fun x =>
    lt_of_lt_of_le (Obfuscate_lt f hwf x)
      (Nat.pow_le_pow_right (by norm_num) (le_trans hwf.2.2 (by norm_num)))
  deob_lt64 := fun y =>
    lt_of_lt_of_le (Deobfuscate_lt f hwf y)
      (Nat.pow_le_pow_right (by norm_num) (le_trans hwf.2.2 (by norm_num)))

/-- The Generator configuration while New is applying options (idgen.go lines
20-33): epoch in Unix milliseconds, pace in nanoseconds (Go time.Duration),
domain bits, base36 width, and a possibly still absent obfuscator.  The
mutable lastTick/mutex pair is runtime state, modelled by GenTrace below. -/
structure GenConfig where
  epochMS : Int
  pace : Int
  bits : Nat
  width : Int
  ob : Option Obfuscator

/-- A successfully constructed Generator: same configuration, with the
obfuscator guaranteed present. -/
structure Generator where
  epochMS : Int
  pace : Int
  bits : Nat
  width : Int
  ob : Obfuscator

/-- The Option values exported by the package (idgen.go lines 35-88).  A Go
Option is a closure over one configuration value; outside the package only
these five constructors can touch the unexported fields, so they form a
closed type.  WithEpoch carries the epoch already converted to Unix
milliseconds (Go applies t.UTC().UnixMilli()). -/
inductive GOption where
  | withEpoch (ms : Int)
  | withPace (d : Int)
  | withBits (bits : Nat)
  | withWidth (width : Int)
  | withObfuscation (ob : Obfuscator)

/-- Application of one option, with its validation (idgen.go lines 39-88).
The nil-obfuscator check of WithObfuscation cannot fire in the model since
the constructor carries a real Obfuscator. -/
def applyOption (g : GenConfig) : GOption → Except String GenConfig
  | .withEpoch ms => .ok { g with epochMS := ms }
  | .withPace d =>
    if d ≤ 0 then .error "pace must be > 0" else .ok { g with pace := d }
  | .withBits bits =>
    if bits = 0 ∨ 63 < bits then .error "bits must be in [1,63]"
    else .ok { g with bits := bits }
  | .withWidth width =>
    if width < 1 then .error "width must be >= 1" else .ok { g with width := width }
  | .withObfuscation ob => .ok { g with ob := some ob }

/-- Sequential application of the options, stopping at the first error
(the loop in New, idgen.go lines 104-108). -/
def applyOpts (g : GenConfig) : List GOption → Except String GenConfig
  | [] => .ok g
  | o :: rest =>
    match applyOption g o with
    | .ok g1 => applyOpts g1 rest
    | .error e => .error e

/-- The float64 constant 5.16992500144 (an approximation of log2(36)) used by
New and widthSupportsBits, modelled as an exact rational.  Over the ranges
the package can reach, exact rational evaluation of the two float expressions
below agrees with Go float64 evaluation: the rounding error stays below 1e-13
while the compared quantities are never within 1e-2 of a tie. -/
def log2of36 : ℚ := 516992500144 / 100000000000

/-- widthSupportsBits (idgen.go lines 136-139): width*log2(36) + 1e-12 >= bits,
meaning 36^width >= 2^bits up to the float approximation. -/
def widthSupportsBits (width : Int) (bits : Nat) : Bool :=
  decide ((bits : ℚ) ≤ (width : ℚ) * log2of36 + 1 / 1000000000000)

/-- Derivation of bits from width (New, idgen.go lines 110-118):
bits = floor(width * 5.16992500144), clamped to at least 1. -/
def deriveBits (width : Int) : Nat :=
  let b := (((width : ℚ) * log2of36).floor).toNat
  if b < 1 then 1 else b

/-- The validation tail of New, after the options have been applied (idgen.go
lines 109-133): derive bits from width when unset, check the width/bits
capacity, then install the default Feistel(bits, 4) obfuscator or check the
domain width of a supplied one. -/
def finalizeCore (g2 : GenConfig) : Except String Generator :=
  if widthSupportsBits g2.width g2.bits then
    match g2.ob with
    | none =>
      match h : NewFeistel (g2.bits) 4 with
      | .ok f =>
        .ok { epochMS := g2.epochMS, pace := g2.pace, bits := g2.bits,
              width := g2.width, ob := f.toObfuscator (NewFeistel_wf h).1 }
      | .error e => .error e
    | some ob =>
      if ob.domainBits = g2.bits then
        .ok { epochMS := g2.epochMS, pace := g2.pace, bits := g2.bits,
              width := g2.width, ob := ob }
      else .error "obfuscator domain bits mismatch"
  else .error "width too small for selected bits"

def finalize (g1 : GenConfig) : Except String Generator :=
  finalizeCore (if g1.bits = 0 then { g1 with bits := deriveBits g1.width } else g1)

/-- New (idgen.go lines 96-134): defaults (epoch 2025-01-01T00:00:00Z =
1735689600000 Unix ms, pace 1ms = 1000000 ns, width 8, bits derived from
width), then option application, then the validation tail. -/
def New (opts : List GOption) : Except String Generator :=
  let g0 : GenConfig :=
    { epochMS := 1735689600000, pace := 1000000, bits := 0, width := 8, ob := none }
  match applyOpts g0 opts with
  | .error e => .error e
  | .ok g1 => finalize g1

/-- The digit alphabet of strconv.FormatUint: lowercase base36 (the prefix of
Go's digit table string that base 36 uses). -/
def digits36 : List Char :=
  "0123456789abcdefghijklmnopqrstuvwxyz".toList

def digitChar (d : Nat) : Char := digits36.getD d '?'

/-- strconv.FormatUint(v, 36): the base-36 digit string of v using lowercase
digits, most significant digit first ("0" for v = 0).  Go strings are
modelled as lists of characters. -/
def formatBase36 (v : Nat) : List Char :=
  if _h : v < 36 then [digitChar v]
  else formatBase36 (v / 36) ++ [digitChar (v % 36)]
decreasing_by exact Nat.div_lt_self (by omega) (by norm_num)

/-- The per-byte digit decoding of strconv.ParseUint, written on code points
as Go writes it on bytes: 48..57 are the ASCII digits (value byte - 48),
97..122 the lowercase letters (value byte - 97 + 10 = byte - 87), and
65..90 the uppercase letters (value byte - 65 + 10 = byte - 55); both letter
cases are accepted.  Anything else is not a digit. -/
def digitVal (c : Char) : Option Nat :=
  let n := c.toNat
  if 48 ≤ n ∧ n ≤ 57 then some (n - 48)
  else if 97 ≤ n ∧ n ≤ 122 then some (n - 87)
  else if 65 ≤ n ∧ n ≤ 90 then some (n - 55)
  else none

/-- The accumulating loop of strconv.ParseUint(s, 36, 64): left-to-right digit
accumulation; a non-digit byte or a digit value >= base is a syntax error, and
an accumulated value that no longer fits in a uint64 is a range error (Go
detects this by a cutoff test before the multiply plus a wrap test after the
add, which together fire exactly when the exact value reaches 2^64). -/
def parseLoop : List Char → Nat → Except String Nat
  | [], n => .ok n
  | c :: rest, n =>
    match digitVal c with
    | none => .error "invalid syntax"
    | some d =>
      if 36 ≤ d then .error "invalid syntax"
      else if 2 ^ 64 ≤ n * 36 + d then .error "value out of range"
      else parseLoop rest (n * 36 + d)

/-- strconv.ParseUint(s, 36, 64): empty input is a syntax error, otherwise the
digit loop runs over the whole string. -/
def parseUint36 (s : List Char) : Except String Nat :=
  if s.isEmpty then .error "invalid syntax" else parseLoop s 0

/-- unicode.IsSpace restricted to its Latin-1 range (ASCII whitespace, NEL and
NBSP), which covers every whitespace byte that can reach this package. -/
def isSpace (c : Char) : Bool :=
  c == ' ' || c == '\t' || c == '\n' || c == '\x0b' || c == '\x0c' || c == '\r' ||
    c == '\x85' || c == '\xa0'

/-- strings.TrimSpace: drop whitespace from both ends. -/
def trimSpace (s : List Char) : List Char :=
  ((s.dropWhile isSpace).reverse.dropWhile isSpace).reverse

/-- Generator.Format (idgen.go lines 167-181): mask the raw tick to bits,
obfuscate, encode in lowercase base 36, left-pad with zeros to width.
uint64(raw) is raw mod 2^64; the Go mask expression uint64(1)<<bits - 1
equals (2^bits - 1) mod 2^64 for every bits value, including bits >= 64 where
the Go shift yields 0 and the subtraction wraps around to 2^64 - 1. -/
def Format (g : Generator) (raw : Int) : List Char :=
  let mask : Nat := (2 ^ g.bits - 1) % 2 ^ 64
  let v := (raw % 2 ^ 64).toNat &&& mask
  let obf := g.ob.obfuscate v
  let s := formatBase36 obf
  if (s.length : Int) < g.width then
    List.replicate (g.width - (s.length : Int)).toNat '0' ++ s
  else s

/-- int64(u) for a uint64 value u: two's-complement reinterpretation. -/
def int64OfUint64 (n : Nat) : Int :=
  if n < 2 ^ 63 then (n : Int) else (n : Int) - 2 ^ 64

/-- Generator.Parse (idgen.go lines 184-197): trim whitespace, reject empty
input, decode with ParseUint(s, 36, 64), mask to bits, deobfuscate, mask
again, and return the raw tick as an int64. -/
def Parse (g : Generator) (s0 : List Char) : Except String Int :=
  let s := trimSpace s0
  if s = [] then .error "empty id"
  else
    match parseUint36 s with
    | .error e => .error e
    | .ok v0 =>
      let mask : Nat := (2 ^ g.bits - 1) % 2 ^ 64
      let v := v0 &&& mask
      let raw := g.ob.deobfuscate v &&& mask
      .ok (int64OfUint64 raw)

/-- int64 two's-complement wrap of an unbounded integer value. -/
def wrap64 (x : Int) : Int := (x + 2 ^ 63) % 2 ^ 64 - 2 ^ 63

/-- Generator.TimestampFromRaw (idgen.go lines 200-211), with the resulting
time.Time represented by its Unix-millisecond value (time.UnixMilli(ms).UTC()
is determined by ms): epoch plus raw times the pace truncated to whole
milliseconds (clamped to at least 1 ms).  Go Duration division truncates
toward zero (Int.tdiv); the int64 product-and-sum wraps mod 2^64. -/
def TimestampFromRaw (g : Generator) (raw : Int) : Int :=
  let q := if g.pace ≤ 0 then 1000000 else g.pace
  let d0 := Int.tdiv q 1000000
  let d := if d0 ≤ 0 then 1 else d0
  wrap64 (g.epochMS + raw * d)

/-- Model of Generate (idgen.go lines 143-164) for C4: the mutex serializes
all callers, and a call returns a sampled now-tick only when it is strictly
greater than lastTick, committing it to lastTick in the same critical section
(otherwise it sleeps and resamples).  GenTrace last ts holds when ts is a
possible sequence of ticks returned, in commit order, by successive Generate
calls starting from lastTick = last; the sampled clock values are left
unconstrained. -/
inductive GenTrace : Int → List Int → Prop where
  | nil (last : Int) : GenTrace last []
  | step (last now : Int) (rest : List Int) (hgt : last < now)
      (htail : GenTrace now rest) : GenTrace last (now :: rest)

/-- Configuration facts maintained by option application: pace stays positive,
width stays at least 1, and bits is either the derive sentinel 0 or in
[1, 63]. -/
def ConfigInv (c : GenConfig) : Prop :=
  0 < c.pace ∧ 1 ≤ c.width ∧ (c.bits = 0 ∨ (1 ≤ c.bits ∧ c.bits ≤ 63))

theorem applyOption_inv {c c' : GenConfig} {o : GOption} (h : ConfigInv c)
    (ha : applyOption c o = Except.ok c') : ConfigInv c' := by
  cases o with
  | withEpoch ms =>
    simp only [applyOption] at ha
    cases ha
    exact h
  | withPace d =>
    simp only [applyOption] at ha
    by_cases hd : d ≤ 0
    · rw [if_pos hd] at ha
      exact absurd ha (by simp)
    · rw [if_neg hd] at ha
      cases ha
      exact ⟨show (0 : Int) < d by omega, h.2.1, h.2.2⟩
  | withBits b =>
    simp only [applyOption] at ha
    by_cases hb : b = 0 ∨ 63 < b
    · rw [if_pos hb] at ha
      exact absurd ha (by simp)
    · rw [if_neg hb] at ha
      cases ha
      exact ⟨h.1, h.2.1, Or.inr ⟨show 1 ≤ b by omega, show b ≤ 63 by omega⟩⟩
  | withWidth w =>
    simp only [applyOption] at ha
    by_cases hw : w < 1
    · rw [if_pos hw] at ha
      exact absurd ha (by simp)
    · rw [if_neg hw] at ha
      cases ha
      exact ⟨h.1, show (1 : Int) ≤ w by omega, h.2.2⟩
  | withObfuscation ob =>
    simp only [applyOption] at ha
    cases ha
    exact h

theorem applyOpts_inv : ∀ {opts : List GOption} {c c' : GenConfig}, ConfigInv c →
    applyOpts c opts = Except.ok c' → ConfigInv c'
  | [], _, _, h, ha => by
    simp only [applyOpts] at ha
    cases ha
    exact h
  | o :: rest, c, c', h, ha => by
    simp only [applyOpts] at ha
    cases hao : applyOption c o with
    | ok c1 =>
      rw [hao] at ha
      exact applyOpts_inv (applyOption_inv h hao) ha
    | error e =>
      rw [hao] at ha
      exact absurd ha (by simp)

theorem deriveBits_pos (w : Int) : 1 ≤ deriveBits w := by
  simp only [deriveBits]
  split <;> omega

theorem deriveBits_ge_67 {w : Int} (hw : 13 ≤ w) : 67 ≤ deriveBits w := by
  have hc : (0 : ℚ) ≤ log2of36 := by norm_num [log2of36]
  have hq : (67 : ℚ) ≤ (w : ℚ) * log2of36 := by
    have h13 : (67 : ℚ) ≤ (13 : ℚ) * log2of36 := by norm_num [log2of36]
    calc (67 : ℚ) ≤ 13 * log2of36 := h13
      _ ≤ (w : ℚ) * log2of36 := by
        apply mul_le_mul_of_nonneg_right _ hc
        exact_mod_cast hw
  have hfloor : (67 : ℤ) ≤ ((w : ℚ) * log2of36).floor := Rat.le_floor.mpr (by exact_mod_cast hq)
  simp only [deriveBits]
  split <;> omega

theorem deriveBits_ne_64 (w : Int) : deriveBits w ≠ 64 := by
  rcases lt_or_le w 1 with hw | hw
  · have hw0 : (w : ℚ) ≤ 0 := by exact_mod_cast (by omega : w ≤ 0)
    have hc : (0 : ℚ) ≤ log2of36 := by norm_num [log2of36]
    have hq : (w : ℚ) * log2of36 ≤ 0 := mul_nonpos_iff.mpr (Or.inr ⟨hw0, hc⟩)
    have hfloor : ((w : ℚ) * log2of36).floor ≤ 0 := by
      by_contra hcon
      push_neg at hcon
      have h1 := Rat.le_floor.mp hcon
      norm_num at h1
      linarith
    simp only [deriveBits]
    split <;> omega
  · rcases lt_or_le w 13 with hw13 | hw13
    · interval_cases w <;> exact of_decide_eq_true (by with_unfolding_all rfl)
    · have := deriveBits_ge_67 hw13
      omega

theorem wsb_iff_small : ∀ wn : Nat, wn < 13 → ∀ bits : Nat, bits < 65 →
    (widthSupportsBits (wn : Int) bits = true ↔ 2 ^ bits ≤ 36 ^ wn) :=
  of_decide_eq_true (by with_unfolding_all rfl)

theorem wsb_nonpos {w : Int} (hw : w ≤ 0) {bits : Nat} (hb : 1 ≤ bits) :
    widthSupportsBits w bits = false := by
  simp only [widthSupportsBits, decide_eq_false_iff_not, not_le]
  have hw0 : (w : ℚ) ≤ 0 := by exact_mod_cast hw
  have hc : (0 : ℚ) ≤ log2of36 := by norm_num [log2of36]
  have hq : (w : ℚ) * log2of36 ≤ 0 := mul_nonpos_iff.mpr (Or.inr ⟨hw0, hc⟩)
  have hb1 : (1 : ℚ) ≤ (bits : ℚ) := by exact_mod_cast hb
  have heps : (1 / 1000000000000 : ℚ) < 1 := by norm_num
  linarith

theorem wsb_ge13 {w : Int} (hw : 13 ≤ w) {bits : Nat} (hb : bits ≤ 64) :
    widthSupportsBits w bits = true := by
  simp only [widthSupportsBits, decide_eq_true_eq]
  have hc : (0 : ℚ) ≤ log2of36 := by norm_num [log2of36]
  have h13 : (67 : ℚ) ≤ (13 : ℚ) * log2of36 := by norm_num [log2of36]
  have hmono : (13 : ℚ) * log2of36 ≤ (w : ℚ) * log2of36 := by
    apply mul_le_mul_of_nonneg_right _ hc
    exact_mod_cast hw
  have hb64 : (bits : ℚ) ≤ 64 := by exact_mod_cast hb
  linarith

theorem wsb_iff_pow {w : Int} {bits : Nat} (h1 : 1 ≤ bits) (h64 : bits ≤ 64) :
    (widthSupportsBits w bits = true ↔ 2 ^ bits ≤ 36 ^ w.toNat) := by
  rcases le_or_lt w 0 with hw | hw
  · rw [wsb_nonpos hw h1]
    have hwt : w.toNat = 0 := by omega
    rw [hwt]
    simp only [pow_zero, Bool.false_eq_true, false_iff, not_le]
    calc (1 : Nat) < 2 ^ 1 := by norm_num
      _ ≤ 2 ^ bits := Nat.pow_le_pow_right (by norm_num) h1
  · rcases lt_or_le w 13 with hw13 | hw13
    · have hwn : w = (w.toNat : Int) := by omega
      rw [hwn]
      exact wsb_iff_small w.toNat (by omega) bits (by omega)
    · rw [wsb_ge13 hw13 h64]
      simp only [true_iff]
      calc 2 ^ bits ≤ 2 ^ 64 := Nat.pow_le_pow_right (by norm_num) h64
        _ ≤ 36 ^ 13 := by norm_num
        _ ≤ 36 ^ w.toNat := Nat.pow_le_pow_right (by norm_num) (by omega)

theorem finalizeCore_inv {c2 : GenConfig} {g : Generator}
    (hpace : 0 < c2.pace) (hwidth : 1 ≤ c2.width) (hpos : 1 ≤ c2.bits)
    (hne64 : c2.bits ≠ 64) (hg : finalizeCore c2 = Except.ok g) :
    0 < g.pace ∧ 1 ≤ g.width ∧ 1 ≤ g.bits ∧ g.bits ≤ 63 ∧
      widthSupportsBits g.width g.bits = true ∧ g.ob.domainBits = g.bits ∧
      g.pace = c2.pace ∧ g.width = c2.width ∧ g.epochMS = c2.epochMS ∧
      g.bits = c2.bits := by
  simp only [finalizeCore] at hg
  split at hg
  case isFalse => exact Except.noConfusion hg
  case isTrue hwsb =>
    split at hg
    case h_1 hobnone =>
      split at hg
      case h_1 f hnf =>
        obtain ⟨hwf, hfk, hkpos, -⟩ := NewFeistel_wf hnf
        cases hg
        refine ⟨hpace, hwidth, ?_, ?_, hwsb, ?_, rfl, rfl, rfl, rfl⟩
        · show 1 ≤ c2.bits
          omega
        · show c2.bits ≤ 63
          have := hwf.2.2
          omega
        · show f.k = c2.bits
          omega
      case h_2 e hnf => exact Except.noConfusion hg
    case h_2 ob hobsome =>
      split at hg
      case isFalse => exact Except.noConfusion hg
      case isTrue hdom =>
        cases hg
        have hle := ob.domainBits_le
        refine ⟨hpace, hwidth, hpos, ?_, hwsb, hdom, rfl, rfl, rfl, rfl⟩
        show c2.bits ≤ 63
        omega

theorem finalize_inv {c : GenConfig} {g : Generator} (hc : ConfigInv c)
    (hg : finalize c = Except.ok g) :
    0 < g.pace ∧ 1 ≤ g.width ∧ 1 ≤ g.bits ∧ g.bits ≤ 63 ∧
      widthSupportsBits g.width g.bits = true ∧ g.ob.domainBits = g.bits ∧
      g.pace = c.pace ∧ g.width = c.width ∧ g.epochMS = c.epochMS ∧
      g.bits = (if c.bits = 0 then deriveBits c.width else c.bits) := by
  obtain ⟨hpace, hwidth, hbits⟩ := hc
  simp only [finalize] at hg
  by_cases hb0 : c.bits = 0
  · rw [if_pos hb0] at hg
    have h := @finalizeCore_inv { c with bits := deriveBits c.width } g
      hpace hwidth (deriveBits_pos c.width) (deriveBits_ne_64 c.width) hg
    rw [if_pos hb0]
    exact h
  · rw [if_neg hb0] at hg
    have hbr : 1 ≤ c.bits ∧ c.bits ≤ 63 := by
      rcases hbits with h0 | h1
      · exact absurd h0 hb0
      · exact h1
    have h := finalizeCore_inv hpace hwidth hbr.1 (by omega) hg
    rw [if_neg hb0]
    exact h

theorem New_ok_inv {opts : List GOption} {g : Generator} (hg : New opts = Except.ok g) :
    0 < g.pace ∧ 1 ≤ g.width ∧ 1 ≤ g.bits ∧ g.bits ≤ 63 ∧
      widthSupportsBits g.width g.bits = true ∧ g.ob.domainBits = g.bits := by
  simp only [New] at hg
  cases ha : applyOpts
      { epochMS := 1735689600000, pace := 1000000, bits := 0, width := 8, ob := none } opts with
  | error e =>
    rw [ha] at hg
    exact absurd hg (by simp)
  | ok g1 =>
    rw [ha] at hg
    have hinv : ConfigInv g1 :=
      applyOpts_inv ⟨by norm_num, by norm_num, Or.inl rfl⟩ ha
    have h := finalize_inv hinv hg
    exact ⟨h.1, h.2.1, h.2.2.1, h.2.2.2.1, h.2.2.2.2.1, h.2.2.2.2.2.1⟩

theorem digitVal_digitChar : ∀ d : Nat, d < 36 → digitVal (digitChar d) = some d := by
  decide

theorem digitChar_not_space : ∀ d : Nat, d < 36 → isSpace (digitChar d) = false := by
  decide

theorem formatBase36_digits (v : Nat) : ∀ c ∈ formatBase36 v, ∃ d, d < 36 ∧ c = digitChar d := by
  induction v using Nat.strong_induction_on with
  | _ v ih =>
    rw [formatBase36]
    split
    · intro c hc
      rw [List.mem_singleton] at hc
      exact ⟨v, by omega, hc⟩
    · intro c hc
      rw [List.mem_append] at hc
      rcases hc with hc | hc
      · exact ih (v / 36) (Nat.div_lt_self (by omega) (by norm_num)) c hc
      · rw [List.mem_singleton] at hc
        exact ⟨v % 36, Nat.mod_lt _ (by norm_num), hc⟩

theorem formatBase36_ne_nil (v : Nat) : formatBase36 v ≠ [] := by
  rw [formatBase36]
  split
  · simp
  · simp

theorem formatBase36_val (v : Nat) :
    List.foldl (fun n c => n * 36 + (digitVal c).getD 0) 0 (formatBase36 v) = v := by
  induction v using Nat.strong_induction_on with
  | _ v ih =>
    rw [formatBase36]
    split
    case isTrue h =>
      simp [digitVal_digitChar v h]
    case isFalse h =>
      rw [List.foldl_append, ih (v / 36) (Nat.div_lt_self (by omega) (by norm_num))]
      simp [digitVal_digitChar (v % 36) (Nat.mod_lt _ (by norm_num))]
      omega

theorem formatBase36_length_le {n : Nat} (hn : 1 ≤ n) :
    ∀ {v : Nat}, v < 36 ^ n → (formatBase36 v).length ≤ n := by
  induction n with
  | zero => omega
  | succ n ih =>
    intro v hv
    rw [formatBase36]
    split
    case isTrue h =>
      simp
    case isFalse h =>
      have hd : v / 36 < 36 ^ n := by
        apply Nat.div_lt_of_lt_mul
        calc v < 36 ^ (n + 1) := hv
          _ = 36 * 36 ^ n := by rw [Nat.pow_succ, Nat.mul_comm]
      have hn1 : 1 ≤ n := by
        by_contra hcon
        have hn0 : n = 0 := by omega
        rw [hn0, pow_zero] at hd
        omega
      have hrec := ih hn1 hd
      rw [List.length_append, List.length_singleton]
      omega

theorem foldl_digits_mono (l : List Char) :
    ∀ acc : Nat, acc ≤ List.foldl (fun n c => n * 36 + (digitVal c).getD 0) acc l := by
  induction l with
  | nil =>
    intro acc
    simp
  | cons c rest ih =>
    intro acc
    rw [List.foldl_cons]
    exact le_trans (by omega) (ih (acc * 36 + (digitVal c).getD 0))

theorem parseLoop_ok {l : List Char} :
    ∀ acc : Nat, (∀ c ∈ l, ∃ d, digitVal c = some d ∧ d < 36) →
    List.foldl (fun n c => n * 36 + (digitVal c).getD 0) acc l < 2 ^ 64 →
    parseLoop l acc = Except.ok (List.foldl (fun n c => n * 36 + (digitVal c).getD 0) acc l) := by
  induction l with
  | nil =>
    intro acc _ _
    rfl
  | cons c rest ih =>
    intro acc hdig hbound
    obtain ⟨d, hd, hd36⟩ := hdig c (List.mem_cons_self c rest)
    simp only [List.foldl_cons, hd, Option.getD_some] at hbound ⊢
    have hmid : acc * 36 + d < 2 ^ 64 := by
      have hmono := foldl_digits_mono rest (acc * 36 + d)
      simp only [hd, Option.getD_some] at hmono
      omega
    simp only [parseLoop, hd]
    rw [if_neg (by omega), if_neg (by omega)]
    exact ih (acc * 36 + d) (fun c' hc' => hdig c' (List.mem_cons_of_mem c hc')) hbound

theorem foldl_replicate_zero (m : Nat) :
    List.foldl (fun n c => n * 36 + (digitVal c).getD 0) 0 (List.replicate m '0') = 0 := by
  induction m with
  | zero => rfl
  | succ m ih =>
    rw [List.replicate_succ, List.foldl_cons]
    simpa using ih

theorem parseUint36_pad_format {v : Nat} (hv : v < 2 ^ 64) (m : Nat) :
    parseUint36 (List.replicate m '0' ++ formatBase36 v) = Except.ok v := by
  unfold parseUint36
  rw [if_neg (by simp [List.isEmpty_iff, formatBase36_ne_nil v])]
  have hdig : ∀ c ∈ List.replicate m '0' ++ formatBase36 v, ∃ d, digitVal c = some d ∧ d < 36 := by
    intro c hc
    rw [List.mem_append] at hc
    rcases hc with hc | hc
    · rw [List.eq_of_mem_replicate hc]
      exact ⟨0, by decide, by norm_num⟩
    · obtain ⟨d, hd36, rfl⟩ := formatBase36_digits v c hc
      exact ⟨d, digitVal_digitChar d hd36, hd36⟩
  have hval : List.foldl (fun n c => n * 36 + (digitVal c).getD 0) 0
      (List.replicate m '0' ++ formatBase36 v) = v := by
    rw [List.foldl_append, foldl_replicate_zero, formatBase36_val]
  rw [parseLoop_ok 0 hdig (by rw [hval]; exact hv), hval]

theorem trim_dropWhile_eq_self {l : List Char} (h : ∀ c ∈ l, isSpace c = false) :
    l.dropWhile isSpace = l := by
  cases l with
  | nil => rfl
  | cons c rest =>
    rw [List.dropWhile_cons, h c (List.mem_cons_self c rest)]
    simp

theorem trimSpace_eq_self {l : List Char} (h : ∀ c ∈ l, isSpace c = false) :
    trimSpace l = l := by
  unfold trimSpace
  rw [trim_dropWhile_eq_self h,
    trim_dropWhile_eq_self (fun c hc => h c (List.mem_reverse.mp hc)),
    List.reverse_reverse]

theorem toNat_emod {a : Int} (ha : 0 ≤ a) {n : Nat} (hn : 0 < n) :
    a.toNat % n = (a % (n : Int)).toNat := by
  have hne : ((n : Nat) : Int) ≠ 0 := by exact_mod_cast hn.ne'
  have hmod_nonneg : 0 ≤ a % (n : Int) := Int.emod_nonneg a hne
  have h1 : ((a.toNat % n : Nat) : Int) = ((a % (n : Int)).toNat : Int) := by
    rw [Int.toNat_of_nonneg hmod_nonneg]
    push_cast [Int.toNat_of_nonneg ha]
    rfl
  exact_mod_cast h1

theorem mask_lt64 {bits : Nat} (hbits : bits ≤ 63) :
    ((2 : Nat) ^ bits - 1) % 2 ^ 64 = 2 ^ bits - 1 := by
  apply Nat.mod_eq_of_lt
  have h1 : (2 : Nat) ^ bits ≤ 2 ^ 63 := Nat.pow_le_pow_right (by norm_num) hbits
  have h2 : (2 : Nat) ^ 63 < 2 ^ 64 := by norm_num
  omega

/-- Format, rewritten as zero-padding in front of the base-36 digits of the
obfuscated masked tick. -/
theorem Format_v_eq {bits : Nat} (hbits : bits ≤ 63) (t : Int) :
    ((t % 2 ^ 64).toNat) &&& ((2 ^ bits - 1) % 2 ^ 64)
      = (t % ((2 ^ bits : Nat) : Int)).toNat := by
  rw [mask_lt64 hbits, Nat.and_pow_two_sub_one_eq_mod,
    toNat_emod (Int.emod_nonneg t (by norm_num)) (Nat.two_pow_pos bits)]
  congr 1
  apply Int.emod_emod_of_dvd
  have h2 : ((2 ^ bits : Nat) : Int) = (2 : Int) ^ bits := by push_cast; rfl
  rw [h2]
  exact pow_dvd_pow 2 (by omega)

theorem Format_eq (g : Generator) (hbits : g.bits ≤ 63) (t : Int) :
    ∃ m, Format g t =
      List.replicate m '0' ++
        formatBase36 (g.ob.obfuscate ((t % ((2 ^ g.bits : Nat) : Int)).toNat)) := by
  simp only [Format, Format_v_eq hbits t]
  split
  · exact ⟨_, rfl⟩
  · exact ⟨0, by simp⟩

/-- C3: for every successfully constructed generator with domain bits k and
every int64 tick t, Parse (Format t) succeeds and returns t & mask, that is
t mod 2^k; in particular it returns t itself for t in [0, 2^k). -/
theorem parse_format_roundtrip (opts : List GOption) (g : Generator) (t : Int)
    (hg : New opts = Except.ok g) :
    Parse g (Format g t) = Except.ok (t % ((2 ^ g.bits : Nat) : Int)) := by
  obtain ⟨hpace, hwidth, hb1, hb63, hwsb, hdom⟩ := New_ok_inv hg
  obtain ⟨m, hfmt⟩ := Format_eq g hb63 t
  rw [hfmt]
  have hpow_pos : (0 : Int) < ((2 ^ g.bits : Nat) : Int) := by positivity
  have h0 : 0 ≤ t % ((2 ^ g.bits : Nat) : Int) := Int.emod_nonneg t hpow_pos.ne'
  have h1 : t % ((2 ^ g.bits : Nat) : Int) < ((2 ^ g.bits : Nat) : Int) :=
    Int.emod_lt_of_pos t hpow_pos
  have hvtlt : (t % ((2 ^ g.bits : Nat) : Int)).toNat < 2 ^ g.bits := by omega
  have hvdom : (t % ((2 ^ g.bits : Nat) : Int)).toNat < 2 ^ g.ob.domainBits := by
    rw [hdom]
    exact hvtlt
  have hobf_lt : g.ob.obfuscate ((t % ((2 ^ g.bits : Nat) : Int)).toNat) < 2 ^ g.bits := by
    have h := g.ob.obf_mem _ hvdom
    rwa [hdom] at h
  have hobf64 : g.ob.obfuscate ((t % ((2 ^ g.bits : Nat) : Int)).toNat) < 2 ^ 64 :=
    g.ob.obf_lt64 _
  have hnospace : ∀ c ∈ List.replicate m '0' ++
      formatBase36 (g.ob.obfuscate ((t % ((2 ^ g.bits : Nat) : Int)).toNat)),
      isSpace c = false := by
    intro c hc
    rw [List.mem_append] at hc
    rcases hc with hc | hc
    · rw [List.eq_of_mem_replicate hc]
      decide
    · obtain ⟨d, hd36, rfl⟩ := formatBase36_digits _ c hc
      exact digitChar_not_space d hd36
  simp only [Parse, trimSpace_eq_self hnospace]
  rw [if_neg (by simp [formatBase36_ne_nil])]
  rw [parseUint36_pad_format hobf64 m]
  simp only [mask_lt64 hb63, Nat.and_pow_two_sub_one_eq_mod,
    Nat.mod_eq_of_lt hobf_lt]
  rw [g.ob.deob_obf _ hvdom]
  rw [Nat.mod_eq_of_lt hvtlt]
  have hlt63 : (t % ((2 ^ g.bits : Nat) : Int)).toNat < 2 ^ 63 := by
    have : (2 : Nat) ^ g.bits ≤ 2 ^ 63 := Nat.pow_le_pow_right (by norm_num) hb63
    omega
  simp only [int64OfUint64, if_pos hlt63]
  rw [Int.toNat_of_nonneg h0]

/-- The Feistel instance of the default generator: NewFeistel 41 4. -/
def feistel41 : Feistel := ⟨41, 4, 21, 20, 2199023255551⟩

theorem feistel41_wf : feistel41.Wf :=
  ⟨by decide, by decide, by decide⟩

/-- The generator built by New with all defaults. -/
def gdefLit : Generator :=
  ⟨1735689600000, 1000000, 41, 8, feistel41.toObfuscator feistel41_wf⟩

theorem New_default_eq : New [] = Except.ok gdefLit := by
  with_unfolding_all rfl

theorem parse_format_roundtrip_witness :
    Parse gdefLit (Format gdefLit (-3)) =
      Except.ok ((-3) % ((2 ^ gdefLit.bits : Nat) : Int)) :=
  parse_format_roundtrip [] gdefLit (-3) New_default_eq

/-- C9: whenever Parse succeeds on any input string, the returned tick lies in
[0, 2^k): the decoded value is masked to k bits before deobfuscation and the
deobfuscated value is masked again, so Parse never returns a negative value or
one with bits above k set. -/
theorem parse_result_in_domain (opts : List GOption) (g : Generator)
    (s : List Char) (v : Int) (hg : New opts = Except.ok g)
    (hp : Parse g s = Except.ok v) :
    0 ≤ v ∧ v < ((2 ^ g.bits : Nat) : Int) := by
  obtain ⟨-, -, hb1, hb63, -, -⟩ := New_ok_inv hg
  simp only [Parse] at hp
  split at hp
  · exact Except.noConfusion hp
  · split at hp
    case h_1 => exact Except.noConfusion hp
    case h_2 v0 hv0 =>
      cases hp
      have hraw : g.ob.deobfuscate (v0 &&& (2 ^ g.bits - 1) % 2 ^ 64) &&&
          (2 ^ g.bits - 1) % 2 ^ 64 < 2 ^ g.bits := by
        rw [mask_lt64 hb63, Nat.and_pow_two_sub_one_eq_mod]
        exact Nat.mod_lt _ (Nat.two_pow_pos _)
      have hlt63 : g.ob.deobfuscate (v0 &&& (2 ^ g.bits - 1) % 2 ^ 64) &&&
          (2 ^ g.bits - 1) % 2 ^ 64 < 2 ^ 63 := by
        have h1 : (2 : Nat) ^ g.bits ≤ 2 ^ 63 := Nat.pow_le_pow_right (by norm_num) hb63
        omega
      simp only [int64OfUint64, if_pos hlt63]
      constructor
      · exact Int.ofNat_nonneg _
      · exact_mod_cast hraw

theorem parse_result_in_domain_witness :
    (0 : Int) ≤ 2008184620191 ∧ (2008184620191 : Int) < ((2 ^ gdefLit.bits : Nat) : Int) :=
  parse_result_in_domain [] gdefLit ("z1".toList) 2008184620191 New_default_eq
    (by with_unfolding_all rfl)

theorem toUpper_eq_self {c : Char} (h : ¬(97 ≤ c.toNat ∧ c.toNat ≤ 122)) :
    c.toUpper = c := by
  simp only [Char.toUpper]
  rw [if_neg]
  exact fun hc => h ⟨hc.1, hc.2⟩

theorem char_lower_enum {c : Char} (h1 : 97 ≤ c.toNat) (h2 : c.toNat ≤ 122) :
    digitVal c.toUpper = digitVal c ∧ isSpace c.toUpper = isSpace c := by
  obtain ⟨n, hcn, hn1, hn2⟩ : ∃ n, c = Char.ofNat n ∧ 97 ≤ n ∧ n ≤ 122 :=
    ⟨c.toNat, (Char.ofNat_toNat c).symm, h1, h2⟩
  subst hcn
  interval_cases n <;> exact ⟨by decide, by decide⟩

theorem digitVal_toUpper (c : Char) : digitVal c.toUpper = digitVal c := by
  by_cases h : 97 ≤ c.toNat ∧ c.toNat ≤ 122
  · exact (char_lower_enum h.1 h.2).1
  · rw [toUpper_eq_self h]

theorem isSpace_toUpper (c : Char) : isSpace c.toUpper = isSpace c := by
  by_cases h : 97 ≤ c.toNat ∧ c.toNat ≤ 122
  · exact (char_lower_enum h.1 h.2).2
  · rw [toUpper_eq_self h]

theorem dropWhile_map_toUpper (l : List Char) :
    (l.map Char.toUpper).dropWhile isSpace = (l.dropWhile isSpace).map Char.toUpper := by
  induction l with
  | nil => rfl
  | cons c rest ih =>
    rw [List.map_cons, List.dropWhile_cons, List.dropWhile_cons, isSpace_toUpper]
    by_cases hc : isSpace c = true
    · rw [if_pos hc, if_pos hc, ih]
    · rw [if_neg hc, if_neg hc, List.map_cons]

theorem trimSpace_map_toUpper (s : List Char) :
    trimSpace (s.map Char.toUpper) = (trimSpace s).map Char.toUpper := by
  unfold trimSpace
  rw [dropWhile_map_toUpper, ← List.map_reverse, dropWhile_map_toUpper, ← List.map_reverse]

theorem parseLoop_map_toUpper (l : List Char) :
    ∀ acc, parseLoop (l.map Char.toUpper) acc = parseLoop l acc := by
  induction l with
  | nil =>
    intro acc
    rfl
  | cons c rest ih =>
    intro acc
    rw [List.map_cons]
    simp only [parseLoop, digitVal_toUpper]
    cases hd : digitVal c with
    | none => rfl
    | some d =>
      dsimp only
      by_cases h1 : 36 ≤ d
      · rw [if_pos h1, if_pos h1]
      · rw [if_neg h1, if_neg h1]
        by_cases h2 : 2 ^ 64 ≤ acc * 36 + d
        · rw [if_pos h2, if_pos h2]
        · rw [if_neg h2, if_neg h2]
          exact ih _

theorem parseUint36_map_toUpper (s : List Char) :
    parseUint36 (s.map Char.toUpper) = parseUint36 s := by
  unfold parseUint36
  by_cases hs : s = []
  · subst hs
    rfl
  · rw [if_neg (by simp [hs]), if_neg (by simp [hs]), parseLoop_map_toUpper]

/-- C10: Parse is case-insensitive even though the wire format is
lowercase-only: parsing a string with its letters uppercased gives exactly the
same result, accepted or rejected, as parsing the original (strconv.ParseUint
decodes both letter cases alike). -/
theorem parse_case_insensitive (g : Generator) (s : List Char) :
    Parse g (s.map Char.toUpper) = Parse g s := by
  simp only [Parse, trimSpace_map_toUpper]
  by_cases hs : trimSpace s = []
  · rw [hs]
    simp
  · rw [if_neg (by simp [hs]), if_neg hs, parseUint36_map_toUpper]

/-- C4: modeling Generate as the step relation that commits lastTick only when
the sampled now-tick strictly exceeds it (the comparison and commit happen in
one mutex-protected critical section), every trace of returned ticks is
strictly increasing: each tick exceeds every previously returned one, and no
two calls ever return the same value. -/
theorem generate_strictly_increasing {last : Int} {ts : List Int}
    (h : GenTrace last ts) :
    List.Pairwise (fun a b => a < b) ts ∧ ∀ t ∈ ts, last < t := by
  induction h with
  | nil last => exact ⟨List.Pairwise.nil, by simp⟩
  | step last now rest hgt htail ih =>
    refine ⟨List.Pairwise.cons (fun t ht => ih.2 t ht) ih.1, ?_⟩
    intro t ht
    rcases List.mem_cons.mp ht with rfl | ht
    · exact hgt
    · exact lt_trans hgt (ih.2 t ht)

theorem generate_strictly_increasing_witness :
    List.Pairwise (fun a b : Int => a < b) ([3, 7, 20] : List Int) ∧
      ∀ t ∈ ([3, 7, 20] : List Int), (0 : Int) < t :=
  generate_strictly_increasing
    (GenTrace.step 0 3 _ (by norm_num)
      (GenTrace.step 3 7 _ (by norm_num)
        (GenTrace.step 7 20 _ (by norm_num) (GenTrace.nil 20))))

theorem digitChar_mem_digits36 : ∀ d : Nat, d < 36 → digitChar d ∈ digits36 := by
  decide

/-- C5: for every successfully constructed generator and every int64 tick t
(including zero and negative ticks), Format returns exactly width characters,
all drawn from the lowercase base-36 alphabet, zero-padded on the left; there
is no failure mode. -/
theorem format_fixed_width (opts : List GOption) (g : Generator) (t : Int)
    (hg : New opts = Except.ok g) :
    ((Format g t).length : Int) = g.width ∧ ∀ c ∈ Format g t, c ∈ digits36 := by
  obtain ⟨hpace, hwidth, hb1, hb63, hwsb, hdom⟩ := New_ok_inv hg
  have hpow_pos : (0 : Int) < ((2 ^ g.bits : Nat) : Int) := by positivity
  have h0 : 0 ≤ t % ((2 ^ g.bits : Nat) : Int) := Int.emod_nonneg t hpow_pos.ne'
  have h1 : t % ((2 ^ g.bits : Nat) : Int) < ((2 ^ g.bits : Nat) : Int) :=
    Int.emod_lt_of_pos t hpow_pos
  have hvtlt : (t % ((2 ^ g.bits : Nat) : Int)).toNat < 2 ^ g.ob.domainBits := by
    rw [hdom]
    omega
  have hobf_lt : g.ob.obfuscate ((t % ((2 ^ g.bits : Nat) : Int)).toNat) < 2 ^ g.bits := by
    have h := g.ob.obf_mem _ hvtlt
    rwa [hdom] at h
  have hobf36 : g.ob.obfuscate ((t % ((2 ^ g.bits : Nat) : Int)).toNat)
      < 36 ^ g.width.toNat := by
    calc g.ob.obfuscate ((t % ((2 ^ g.bits : Nat) : Int)).toNat)
        < 2 ^ g.bits := hobf_lt
      _ ≤ 36 ^ g.width.toNat := (wsb_iff_pow hb1 (by omega)).mp hwsb
  have hwn1 : 1 ≤ g.width.toNat := by omega
  have hlen : (formatBase36 (g.ob.obfuscate
      ((t % ((2 ^ g.bits : Nat) : Int)).toNat))).length ≤ g.width.toNat :=
    formatBase36_length_le hwn1 hobf36
  have hchars : ∀ c ∈ formatBase36 (g.ob.obfuscate
      ((t % ((2 ^ g.bits : Nat) : Int)).toNat)), c ∈ digits36 := by
    intro c hc
    obtain ⟨d, hd36, rfl⟩ := formatBase36_digits _ c hc
    exact digitChar_mem_digits36 d hd36
  simp only [Format, Format_v_eq hb63 t]
  split
  case isTrue hlt =>
    constructor
    · rw [List.length_append, List.length_replicate]
      omega
    · intro c hc
      rw [List.mem_append] at hc
      rcases hc with hc | hc
      · rw [List.eq_of_mem_replicate hc]
        decide
      · exact hchars c hc
  case isFalse hge =>
    constructor
    · omega
    · exact hchars

theorem format_fixed_width_witness :
    ((Format gdefLit 123).length : Int) = gdefLit.width ∧
      ∀ c ∈ Format gdefLit 123, c ∈ digits36 :=
  format_fixed_width [] gdefLit 123 New_default_eq

/-- C7 counterexample: with the valid pace 1.5ms (1500000 ns), the code
computes epoch + tick * 1ms (the pace truncated to whole milliseconds), which
for tick 2 differs from the exact epoch + tick * pace = epoch + 3ms that the
claim asserts. -/
theorem timestamp_not_exact_counterexample :
    (New [GOption.withPace 1500000]).toOption.map (fun g => TimestampFromRaw g 2)
        = some 1735689600002 ∧
      (1735689600002 : ℚ) ≠ 1735689600000 + 2 * (1500000 / 1000000) := by
  constructor
  · with_unfolding_all rfl
  · norm_num

/-- C7 (amended): for every successfully constructed generator whose pace is a
whole number of milliseconds, and every tick t such that epoch + t * pace does
not overflow an int64, TimestampFromRaw returns exactly epoch + t * pace (in
milliseconds); there is no failure mode.  (For paces that are not a whole
number of milliseconds the code truncates the pace to whole milliseconds,
clamped to at least 1 ms, so the exactness claim fails there.) -/
theorem timestamp_from_tick_exact (opts : List GOption) (g : Generator) (t : Int)
    (hg : New opts = Except.ok g) (hms : g.pace % 1000000 = 0)
    (hlo : -(2 ^ 63) ≤ g.epochMS + t * (g.pace / 1000000))
    (hhi : g.epochMS + t * (g.pace / 1000000) < 2 ^ 63) :
    TimestampFromRaw g t = g.epochMS + t * (g.pace / 1000000) := by
  obtain ⟨hpace, -, -, -, -, -⟩ := New_ok_inv hg
  simp only [TimestampFromRaw]
  have hq : (if g.pace ≤ 0 then (1000000 : Int) else g.pace) = g.pace := if_neg (by omega)
  rw [hq]
  have htdiv : Int.tdiv g.pace 1000000 = g.pace / 1000000 :=
    Int.tdiv_eq_ediv (by omega) (by omega)
  rw [htdiv]
  have hd1 : 1 ≤ g.pace / 1000000 := by omega
  rw [if_neg (by omega)]
  unfold wrap64
  rw [Int.emod_eq_of_lt (by omega) (by omega)]
  omega

/-- The generator built by New with pace 2ms. -/
def gPace2 : Generator :=
  ⟨1735689600000, 2000000, 41, 8, feistel41.toObfuscator feistel41_wf⟩

theorem New_pace2_eq : New [GOption.withPace 2000000] = Except.ok gPace2 := by
  with_unfolding_all rfl

theorem timestamp_from_tick_exact_witness :
    TimestampFromRaw gPace2 5 = gPace2.epochMS + 5 * (gPace2.pace / 1000000) :=
  timestamp_from_tick_exact [GOption.withPace 2000000] gPace2 5 New_pace2_eq
    (by decide) (by decide) (by decide)

/-- C8: on the default generator, Parse trims surrounding whitespace and
rejects empty input, but it does not strip separator characters: the dashed
display form of an otherwise valid ID is rejected with a syntax error, in
contradiction with the package documentation (README and changelog v0.1.3),
which promise that dashed strings parse like their undashed form. -/
theorem parse_rejects_separators :
    New [] = Except.ok gdefLit ∧
      (Parse gdefLit ("00000000".toList)).toOption = some 1587200559988 ∧
      (Parse gdefLit ("0000-0000".toList)).isOk = false ∧
      (Parse gdefLit ("  00000000 ".toList)).toOption = some 1587200559988 ∧
      (Parse gdefLit ([] : List Char)).isOk = false :=
  ⟨New_default_eq, by with_unfolding_all rfl, by with_unfolding_all rfl,
    by with_unfolding_all rfl, by with_unfolding_all rfl⟩

/-- C6 counterexample: requesting width 13, with no explicit bits and no
supplied permutation, fails construction (the derived bits are 67 and the
default Feistel constructor rejects domains wider than 63 bits), although
none of the claim's enumerated invalid conditions holds: the default pace is
positive, no bits were requested explicitly, the width is not too small for
the derived bits (36^13 >= 2^67), and no permutation was supplied. -/
theorem new_validation_counterexample :
    (New [GOption.withWidth 13]).isOk = false ∧ deriveBits 13 = 67 ∧
      2 ^ 67 ≤ 36 ^ 13 :=
  ⟨by with_unfolding_all rfl, by with_unfolding_all rfl, by norm_num⟩

/-- The canonical option list for one choice of each configuration knob
(epoch, pace, optional explicit bits, width, optional supplied permutation). -/
def mkOpts (e p : Int) (b : Option Nat) (w : Int) (ob : Option Obfuscator) :
    List GOption :=
  [GOption.withEpoch e, GOption.withPace p] ++
    (match b with
     | some b0 => [GOption.withBits b0]
     | none => []) ++
    ([GOption.withWidth w] ++
      (match ob with
       | some o => [GOption.withObfuscation o]
       | none => []))

/-- The generator's effective domain bits: the explicitly requested bits, or
the bits derived from the width. -/
def effectiveBits (b : Option Nat) (w : Int) : Nat :=
  match b with
  | some b0 => b0
  | none => deriveBits w

theorem applyOpts_mkOpts_ok (e p : Int) (b : Option Nat) (w : Int)
    (ob : Option Obfuscator) (hp : 0 < p) (hb : ∀ b0 ∈ b, 1 ≤ b0 ∧ b0 ≤ 63)
    (hw : 1 ≤ w) :
    applyOpts { epochMS := 1735689600000, pace := 1000000, bits := 0, width := 8, ob := none }
      (mkOpts e p b w ob) = Except.ok ⟨e, p, b.getD 0, w, ob⟩ := by
  have hp' : (p ≤ 0) = False := eq_false (by omega)
  have hw' : (w < 1) = False := eq_false (by omega)
  cases b with
  | none =>
    cases ob with
    | none =>
      simp only [mkOpts, List.cons_append, List.nil_append, List.append_nil,
        applyOpts, applyOption, hp', hw', if_false, Option.getD_none]
    | some o =>
      simp only [mkOpts, List.cons_append, List.nil_append, List.append_nil,
        applyOpts, applyOption, hp', hw', if_false, Option.getD_none]
  | some b0 =>
    have hb' : (b0 = 0 ∨ 63 < b0) = False := eq_false (by
      obtain ⟨h1, h2⟩ := hb b0 rfl
      omega)
    cases ob with
    | none =>
      simp only [mkOpts, List.cons_append, List.nil_append, List.append_nil,
        applyOpts, applyOption, hp', hw', hb', if_false, Option.getD_some]
    | some o =>
      simp only [mkOpts, List.cons_append, List.nil_append, List.append_nil,
        applyOpts, applyOption, hp', hw', hb', if_false, Option.getD_some]

theorem New_mkOpts_err_pace (e p : Int) (b : Option Nat) (w : Int)
    (ob : Option Obfuscator) (hp : p ≤ 0) :
    (New (mkOpts e p b w ob)).isOk = false := by
  have hp' : (p ≤ 0) = True := eq_true hp
  cases b <;> cases ob <;>
    simp only [mkOpts, List.cons_append, List.nil_append, List.append_nil,
      New, applyOpts, applyOption, hp', if_true, Except.isOk, Except.toBool]

theorem New_mkOpts_err_bits (e p : Int) (b0 : Nat) (w : Int)
    (ob : Option Obfuscator) (hb : b0 = 0 ∨ 63 < b0) :
    (New (mkOpts e p (some b0) w ob)).isOk = false := by
  by_cases hp : p ≤ 0
  · exact New_mkOpts_err_pace e p (some b0) w ob hp
  · have hp' : (p ≤ 0) = False := eq_false hp
    have hb' : (b0 = 0 ∨ 63 < b0) = True := eq_true hb
    cases ob <;>
      simp only [mkOpts, List.cons_append, List.nil_append, List.append_nil,
        New, applyOpts, applyOption, hp', hb', if_true, if_false, Except.isOk, Except.toBool]

theorem New_mkOpts_err_width (e p : Int) (b : Option Nat) (w : Int)
    (ob : Option Obfuscator) (hp : 0 < p) (hb : ∀ b0 ∈ b, 1 ≤ b0 ∧ b0 ≤ 63)
    (hw : w < 1) :
    (New (mkOpts e p b w ob)).isOk = false := by
  have hp' : (p ≤ 0) = False := eq_false (by omega)
  have hw' : (w < 1) = True := eq_true hw
  cases b with
  | none =>
    cases ob <;>
      simp only [mkOpts, List.cons_append, List.nil_append, List.append_nil,
        New, applyOpts, applyOption, hp', hw', if_true, if_false, Except.isOk, Except.toBool]
  | some b0 =>
    have hb' : (b0 = 0 ∨ 63 < b0) = False := eq_false (by
      obtain ⟨h1, h2⟩ := hb b0 rfl
      omega)
    cases ob <;>
      simp only [mkOpts, List.cons_append, List.nil_append, List.append_nil,
        New, applyOpts, applyOption, hp', hw', hb', if_true, if_false, Except.isOk, Except.toBool]

theorem NewFeistel_err {k : Nat} {rounds : Int} {e : String}
    (hf : NewFeistel k rounds = Except.error e) (hr : 2 ≤ rounds) :
    k = 0 ∨ 63 < k := by
  by_contra hc
  unfold NewFeistel at hf
  rw [if_neg hc, if_neg (by omega)] at hf
  exact Except.noConfusion hf

theorem finalizeCore_isOk (c2 : GenConfig) :
    (finalizeCore c2).isOk = true ↔
      (widthSupportsBits c2.width c2.bits = true ∧
        (match c2.ob with
         | none => 1 ≤ c2.bits ∧ c2.bits ≤ 63
         | some o => o.domainBits = c2.bits)) := by
  simp only [finalizeCore]
  split
  case isTrue hwsb =>
    split
    case h_1 hnone =>
      split
      case h_1 f hnf =>
        obtain ⟨hwf, hfk, hpos, -⟩ := NewFeistel_wf hnf
        simp only [Except.isOk, Except.toBool, true_iff]
        refine ⟨hwsb, ?_, ?_⟩
        · omega
        · have := hwf.2.2
          omega
      case h_2 err hnf =>
        have hk := NewFeistel_err hnf (by norm_num)
        simp only [Except.isOk, Except.toBool, Bool.false_eq_true, false_iff]
        intro hcon
        obtain ⟨-, h1, h2⟩ := hcon
        omega
    case h_2 o hsome =>
      split
      case isTrue hdom =>
        simp only [Except.isOk, Except.toBool, true_iff]
        exact ⟨hwsb, hdom⟩
      case isFalse hdom =>
        simp only [Except.isOk, Except.toBool, Bool.false_eq_true, false_iff]
        intro hcon
        exact hdom hcon.2
  case isFalse hwsb =>
    simp only [Except.isOk, Except.toBool, Bool.false_eq_true, false_iff]
    intro hcon
    exact hwsb hcon.1

/-- C6 (amended): construction succeeds exactly when pace > 0, any explicitly
requested bits lie in [1, 63], the width supports the effective (explicit or
width-derived) bits (36^width >= 2^bits), and in addition either no
permutation is supplied and the effective bits are at most 63 (the default
Feistel rejects wider domains), or the supplied permutation's domain width
equals the effective bits. -/
theorem new_validation_iff (e p : Int) (b : Option Nat) (w : Int)
    (ob : Option Obfuscator) :
    (New (mkOpts e p b w ob)).isOk = true ↔
      (0 < p ∧ (∀ b0 ∈ b, 1 ≤ b0 ∧ b0 ≤ 63) ∧
        (match ob with
         | none => effectiveBits b w ≤ 63 ∧ 2 ^ effectiveBits b w ≤ 36 ^ w.toNat
         | some o => o.domainBits = effectiveBits b w ∧
             2 ^ effectiveBits b w ≤ 36 ^ w.toNat)) := by
  by_cases hp : 0 < p
  case neg =>
    rw [New_mkOpts_err_pace e p b w ob (by omega)]
    simp only [Bool.false_eq_true, false_iff]
    intro hcon
    exact hp hcon.1
  case pos =>
    by_cases hb : ∀ b0 ∈ b, 1 ≤ b0 ∧ b0 ≤ 63
    case neg =>
      cases b with
      | none => exact absurd (by simp) hb
      | some b0 =>
        have hbb : b0 = 0 ∨ 63 < b0 := by
          by_contra hc
          push_neg at hc
          refine hb fun b1 hb1 => ?_
          have hb1' : b1 = b0 := by
            have := hb1
            simp only [Option.mem_def, Option.some.injEq] at this
            omega
          subst hb1'
          omega
        rw [New_mkOpts_err_bits e p b0 w ob hbb]
        simp only [Bool.false_eq_true, false_iff]
        intro hcon
        obtain ⟨h1, h2⟩ := hcon.2.1 b0 rfl
        omega
    case pos =>
      have heff1 : 1 ≤ effectiveBits b w := by
        cases b with
        | none => exact deriveBits_pos w
        | some b0 =>
          obtain ⟨h1, h2⟩ := hb b0 rfl
          simpa [effectiveBits] using h1
      by_cases hw : 1 ≤ w
      case neg =>
        rw [New_mkOpts_err_width e p b w ob hp hb (by omega)]
        simp only [Bool.false_eq_true, false_iff]
        intro hcon
        have hwt : w.toNat = 0 := by omega
        have h2e : 2 ≤ 2 ^ effectiveBits b w := by
          calc (2 : Nat) = 2 ^ 1 := by norm_num
            _ ≤ 2 ^ effectiveBits b w := Nat.pow_le_pow_right (by norm_num) heff1
        cases ob with
        | none =>
          obtain ⟨-, -, -, hmath⟩ := hcon
          rw [hwt, pow_zero] at hmath
          omega
        | some o =>
          obtain ⟨-, -, -, hmath⟩ := hcon
          rw [hwt, pow_zero] at hmath
          omega
      case pos =>
        have hnew : New (mkOpts e p b w ob) = finalize ⟨e, p, b.getD 0, w, ob⟩ := by
          simp only [New, applyOpts_mkOpts_ok e p b w ob hp hb hw]
        rw [hnew]
        simp only [finalize]
        cases b with
        | none =>
          rw [if_pos (by simp)]
          rw [finalizeCore_isOk]
          simp only [effectiveBits]
          constructor
          · rintro ⟨hwsb, hrest⟩
            refine ⟨hp, hb, ?_⟩
            cases ob with
            | none =>
              obtain ⟨h1, h2⟩ := hrest
              exact ⟨h2, (wsb_iff_pow h1 (by omega)).mp hwsb⟩
            | some o =>
              have hdom : o.domainBits = deriveBits w := hrest
              have hle := o.domainBits_le
              exact ⟨hdom, (wsb_iff_pow (deriveBits_pos w) (by omega)).mp hwsb⟩
          · rintro ⟨-, -, hrest⟩
            cases ob with
            | none =>
              obtain ⟨h63, hmath⟩ := hrest
              exact ⟨(wsb_iff_pow (deriveBits_pos w) (by omega)).mpr hmath,
                deriveBits_pos w, h63⟩
            | some o =>
              obtain ⟨hdom, hmath⟩ := hrest
              have hle := o.domainBits_le
              exact ⟨(wsb_iff_pow (deriveBits_pos w) (by omega)).mpr hmath, hdom⟩
        | some b0 =>
          obtain ⟨hb1, hb63⟩ := hb b0 rfl
          rw [if_neg (by simp [Option.getD_some]; omega)]
          rw [finalizeCore_isOk]
          simp only [effectiveBits, Option.getD_some]
          constructor
          · rintro ⟨hwsb, hrest⟩
            refine ⟨hp, hb, ?_⟩
            cases ob with
            | none =>
              exact ⟨hb63, (wsb_iff_pow hb1 (by omega)).mp hwsb⟩
            | some o =>
              have hdom : o.domainBits = b0 := hrest
              exact ⟨hdom, (wsb_iff_pow hb1 (by omega)).mp hwsb⟩
          · rintro ⟨-, -, hrest⟩
            cases ob with
            | none =>
              obtain ⟨h63, hmath⟩ := hrest
              exact ⟨(wsb_iff_pow hb1 (by omega)).mpr hmath, hb1, h63⟩
            | some o =>
              obtain ⟨hdom, hmath⟩ := hrest
              exact ⟨(wsb_iff_pow hb1 (by omega)).mpr hmath, hdom⟩

end Idgen
